import Mathlib

/-!
Verification of the core of `transfer-logs.c` (Toon round-robin archive
transfer tool) against its natural-language specification.

The development shallowly embeds the C functions that the claims refer to:

* `read_csv_time` / `read_csv_data` (import load with cutoff filter),
* `read_rra_file` (archive-native load),
* `search` (recursive pivoted binary search, lines 1206-1233),
* `create_rra_time` (circular timestamp reconstruction, lines 1342-1376),
* `sort_data_for_rra` (temporal merge, lines 1425-1498),
* `read_dat_file` (binary metadata decoder, lines 966-1111).

Modelling conventions:

* C `int` values are modelled as `Int`; 32-bit wraparound is made explicit
  where bytes are assembled (`leVal` / `toInt32`).
* Heap arrays are modelled as total functions `Int → Int` (or `Int → α`):
  an index outside the C allocation reads an unconstrained value, so a
  theorem quantifying over the whole function holds for every possible
  content of adjacent heap memory, and out-of-bounds writes update the
  function at that index without affecting the extracted in-bounds slots.
* `calloc` zero-initialisation is modelled by starting from the constant
  zero function / zero defaults.
* File contents are modelled as the parsed value sequences (for the text
  and fixed-width payload readers) or as raw byte lists (for the binary
  metadata decoder); an absent file is `Option.none`.
* Loops are translated one-to-one; `do { } while` loops keep their
  execute-at-least-once semantics.  Recursions that C runs on mutable
  indices are given an explicit fuel argument that is always at least the
  number of iterations the C loop can perform, so the embedding computes
  by structural recursion and agrees with the C control flow.
-/

namespace TransferLogs

/-! ## Import load (`read_csv_time`, lines 1380-1421, and `read_csv_data`,
lines 1280-1338)

Both functions run the same `while (fgets(...))` loop over the parsed
`(timestamp, value)` rows of the import file, keep a row exactly when
`t <= t_max`, and advance the output index `j` only then.  The text-parsing
layer (`fgets`/`sscanf`) is abstracted: the input is the list of parsed
rows in file order.  `read_csv_time` stores the timestamps of the retained
rows, `read_csv_data` stores the values. -/

/-- The retention loop shared by `read_csv_time` and `read_csv_data`:
walk the parsed rows in file order and keep a row exactly when its
timestamp is `≤ max_time` (the cutoff). -/
def csv_retain (rows : List (Int × Int)) (max_time : Int) : List (Int × Int) :=
  match rows with
  | [] => []
  | r :: rs => if r.1 ≤ max_time then r :: csv_retain rs max_time else csv_retain rs max_time

/-- `read_csv_time`: the timestamp column written out by the loop
(`time_csv[j] = time_tmp; j++` under `time_tmp <= max_time`). -/
def read_csv_time (rows : List (Int × Int)) (max_time : Int) : List Int :=
  (csv_retain rows max_time).map Prod.fst

/-- `read_csv_data`: the value column written out by the loop
(`int_csv[j] = int_tmp` under `t <= t_max`; the floating branch is the
same loop on the value column). -/
def read_csv_data (rows : List (Int × Int)) (max_time : Int) : List Int :=
  (csv_retain rows max_time).map Prod.snd

theorem csv_retain_eq_filter (rows : List (Int × Int)) (c : Int) :
    csv_retain rows c = rows.filter (fun r => r.1 ≤ c) := by
  induction rows with
  | nil => rfl
  | cons r rs ih =>
      by_cases h : r.1 ≤ c <;> simp [csv_retain, h, ih]

/-- **C9.** The import load retains exactly the rows whose timestamp is
`≤ cutoff`, in file order with no sorting: the timestamp column and the
value column produced by the two readers are the two projections of the
cutoff-filtered row list.  In particular, rows with timestamps
`[100, 200, 300]` under cutoff `250` yield exactly the rows with
timestamps `100` and `200`, in that order. -/
theorem C9_cutoff_filter :
    (∀ (rows : List (Int × Int)) (cutoff : Int),
        read_csv_time rows cutoff = (rows.filter (fun r => r.1 ≤ cutoff)).map Prod.fst ∧
        read_csv_data rows cutoff = (rows.filter (fun r => r.1 ≤ cutoff)).map Prod.snd) ∧
    read_csv_time [(100, 7), (200, 8), (300, 9)] 250 = [100, 200] ∧
    read_csv_data [(100, 7), (200, 8), (300, 9)] 250 = [7, 8] := by
  refine ⟨fun rows cutoff => ?_, by decide, by decide⟩
  constructor <;> simp [read_csv_time, read_csv_data, csv_retain_eq_filter]

/-! ## Archive-native load (`read_rra_file`, lines 1237-1277)

The payload file is modelled as the sequence of fixed-width elements it
holds (`Option.none` when `fopen` fails because the file is absent).  The
C loop `for (j = 0; j < n_samples; j++) fread(&arr[j], ...)` reads one
element per slot; once the file is exhausted `fread` returns 0 and the
`calloc`-initialised slot keeps the value 0.  The function returns the
array (`NULL` plus a diagnostic — the `IoError` of the spec — only on the
absent-file path). -/

/-- The element-reading loop of `read_rra_file`: `n` slots are filled from
the front of `file`; slots beyond the end of the file keep the `calloc`
value `0`. -/
def read_rra_loop (file : List Int) (n : Nat) : List Int :=
  match n, file with
  | 0, _ => []
  | Nat.succ m, [] => 0 :: read_rra_loop [] m
  | Nat.succ m, x :: xs => x :: read_rra_loop xs m

/-- `read_rra_file`: `none` models the `NULL` return (with diagnostic) when
the file cannot be opened; otherwise the slot array filled by the loop. -/
def read_rra_file (file : Option (List Int)) (n_samples : Nat) : Option (List Int) :=
  match file with
  | none => none
  | some xs => some (read_rra_loop xs n_samples)

theorem read_rra_loop_len (file : List Int) (n : Nat) :
    (read_rra_loop file n).length = n := by
  induction n generalizing file with
  | zero => rfl
  | succ m ih => cases file <;> simp [read_rra_loop, ih]

theorem read_rra_loop_eq (file : List Int) (n : Nat) :
    read_rra_loop file n = file.take n ++ List.replicate (n - file.length) 0 := by
  induction n generalizing file with
  | zero => simp [read_rra_loop]
  | succ m ih =>
      cases file with
      | nil => simp [read_rra_loop, ih, List.replicate_succ]
      | cons x xs => simp [read_rra_loop, ih, Nat.succ_sub_succ]

/-- **C8 (counterexample).** The claim says a payload file holding fewer
than `n_samples` elements makes the load fail with `IoError`; on the code
a file holding one element under `n_samples = 2` does not fail — it
returns the element followed by the `calloc` value `0`. -/
theorem C8_short_file_counterexample :
    read_rra_file (some [7]) 2 = some [7, 0] ∧ read_rra_file (some [7]) 2 ≠ none := by
  decide

/-- **C8 (amended).** `read_rra_file` fails (returns `NULL`, the `IoError`
result) exactly when the payload file is absent; when the file holds at
least `n_samples` elements it returns exactly the first `n_samples`
elements in slot order; when the file is shorter it does not fail but
returns the file's elements followed by zeros (the `calloc` default) up to
length `n_samples`. -/
theorem C8_read_rra_file (file : List Int) (n : Nat) :
    read_rra_file none n = none ∧
    (n ≤ file.length → read_rra_file (some file) n = some (file.take n)) ∧
    (file.length < n →
      read_rra_file (some file) n = some (file ++ List.replicate (n - file.length) 0)) := by
  refine ⟨rfl, fun h => ?_, fun h => ?_⟩
  · simp [read_rra_file, read_rra_loop_eq, Nat.sub_eq_zero_of_le h]
  · simp [read_rra_file, read_rra_loop_eq, List.take_of_length_le (Nat.le_of_lt h)]

/-- Witness for `C8_read_rra_file`: instantiated at the file `[5, 6, 7]`
with `n_samples = 2` (long enough) and `n_samples = 5` (short). -/
theorem C8_read_rra_file_witness :
    (2 ≤ ([5, 6, 7] : List Int).length ∧ read_rra_file (some [5, 6, 7]) 2 = some [5, 6]) ∧
    (([5, 6, 7] : List Int).length < 5 ∧
      read_rra_file (some [5, 6, 7]) 5 = some [5, 6, 7, 0, 0]) := by
  refine ⟨⟨by decide, ?_⟩, ⟨by decide, ?_⟩⟩
  · have h := (C8_read_rra_file [5, 6, 7] 2).2.1 (by decide)
    simpa using h
  · have h := (C8_read_rra_file [5, 6, 7] 5).2.2 (by decide)
    simpa using h

/-! ## Pivoted binary search (`search`, lines 1206-1233)

`int search(int arr[], int l, int h, int key)` is recursive; the embedding
carries the array as a total function `Int → Int` and a fuel that is the
size of the initial window, which strictly bounds the recursion depth
(each recursive call shrinks `h + 1 - l` by at least one), so the fuelled
function agrees with the C recursion. -/

/-- The recursion of `search` with explicit fuel.  Each case mirrors the C
source: the `l > h` base case, the midpoint equality test, the
left-half-sorted test `arr[l] <= arr[mid]`, and the two range tests. -/
def searchF (a : Int → Int) (key : Int) : Nat → Int → Int → Int
  | 0, _, _ => -1
  | fuel + 1, l, h =>
    if l > h then -1
    else
      let mid := (l + h) / 2
      if a mid = key then mid
      else if a l ≤ a mid then
        if key ≥ a l ∧ key ≤ a mid then searchF a key fuel l (mid - 1)
        else searchF a key fuel (mid + 1) h
      else
        if key ≥ a mid ∧ key ≤ a h then searchF a key fuel (mid + 1) h
        else searchF a key fuel l (mid - 1)

/-- `search(arr, l, h, key)`: the fuel `(h + 1 - l).toNat` is exactly the
initial window size, which bounds the C recursion depth. -/
def search (a : Int → Int) (l h key : Int) : Int :=
  searchF a key (h + 1 - l).toNat l h

theorem searchF_fuel (a : Int → Int) (key : Int) :
    ∀ f1 f2 l h, (h + 1 - l).toNat ≤ f1 → (h + 1 - l).toNat ≤ f2 →
      searchF a key f1 l h = searchF a key f2 l h := by
  intro f1
  induction f1 with
  | zero =>
      intro f2 l h h1 h2
      have hlh : l > h := by omega
      cases f2 <;> simp [searchF, hlh]
  | succ k ih =>
      intro f2 l h h1 h2
      by_cases hlh : l > h
      · cases f2 <;> simp [searchF, hlh]
      · cases f2 with
        | zero => omega
        | succ m =>
            have hmid1 : l ≤ (l + h) / 2 := by omega
            have hmid2 : (l + h) / 2 ≤ h := by omega
            simp only [searchF, if_neg hlh]
            by_cases he : a ((l + h) / 2) = key
            · simp [he]
            · simp only [if_neg he]
              by_cases hs : a l ≤ a ((l + h) / 2)
              · simp only [if_pos hs]
                split <;> apply ih <;> omega
              · simp only [if_neg hs]
                split <;> apply ih <;> omega

theorem search_eq_searchF (a : Int → Int) (key l h : Int) (f : Nat)
    (hf : (h + 1 - l).toNat ≤ f) : search a l h key = searchF a key f l h :=
  searchF_fuel a key _ f l h (Nat.le_refl _) hf

/-! ## Circular timestamp reconstruction (`create_rra_time`, lines 1342-1376)

The `calloc`-allocated array is a total map `Int → Int` starting at the
constant `0`; the two `do { } while` loops are translated with their
execute-at-least-once semantics and a fuel that is at least the number of
iterations the loop performs (the loops decrement `j` by one each pass
until reaching their bound, so `j.toNat + 1` respectively
`(j - fo).toNat + 1` iterations always suffice).  Writes at negative
indices (which the C code performs for small `file_offset`) land harmlessly
outside the extracted window `0 .. n_samples-1`. -/

/-- Pointwise array update (a C assignment `t[i] = v`). -/
def upd (f : Int → Int) (i v : Int) : Int → Int :=
  fun j => if j = i then v else f j

/-- First loop of `create_rra_time`:
`do { time_rra[j-1] = time_rra[j] - interval; j--; } while (j > 0);`
entered with `j = file_offset`. -/
def crt_phase1 (interval : Int) : Nat → (Int → Int) → Int → (Int → Int)
  | 0, f, _ => f
  | fuel + 1, f, j =>
    let f2 := upd f (j - 1) (f j - interval)
    if j - 1 > 0 then crt_phase1 interval fuel f2 (j - 1) else f2

/-- Second loop of `create_rra_time`:
`do { j--; time_rra[j] = time_rra[j+1] - interval; } while (j > file_offset+1);`
entered with `j = n_samples - 1`. -/
def crt_phase2 (interval fo : Int) : Nat → (Int → Int) → Int → (Int → Int)
  | 0, f, _ => f
  | fuel + 1, f, j =>
    let f2 := upd f (j - 1) (f j - interval)
    if j - 1 > fo + 1 then crt_phase2 interval fo fuel f2 (j - 1) else f2

/-- `create_rra_time(data, subset)` on a Buffer with reference timestamps
`ts0 < ts1`, most-recent slot `fo = file_offset` and capacity
`n = n_samples`: seed slot `fo` with `ts1`, run the downward loop, apply
the unconditional wrap write `time_rra[n-1] = time_rra[0] - interval`, run
the second downward loop, and return slots `0 .. n-1`. -/
def create_rra_time (ts0 ts1 fo n : Int) : List Int :=
  let interval := ts1 - ts0
  let f1 := upd (fun _ => 0) fo ts1
  let f2 := crt_phase1 interval (fo.toNat + 1) f1 fo
  let f3 := upd f2 (n - 1) (f2 0 - interval)
  let f4 := crt_phase2 interval fo ((n - 1 - fo).toNat + 1) f3 (n - 1)
  (List.range n.toNat).map (fun i => f4 i)

/-- **C2 (failing input).** For `timestamp_0 = 100`, `timestamp_1 = 200`,
`file_offset = 3`, `n_samples = 4` (interval `100`), the code produces
`[-100, 0, -300, -200]`: the unconditional wrap write and the
at-least-once second loop overwrite slots `3` and `2`, so slot
`file_offset` holds `-200`, not `timestamp_1 = 200`, and the cyclic
adjacency property fails.  The claim (and the spec's Buffer invariant
"slot `file_offset` always holds `timestamp_1`") demands `200` there for
every `0 ≤ file_offset < n_samples`. -/
theorem C2_create_rra_time_bug :
    create_rra_time 100 200 3 4 = [-100, 0, -300, -200] ∧
    (create_rra_time 100 200 3 4).getD 3 0 = -200 ∧ (-200 : Int) ≠ 200 := by
  refine ⟨by decide, by decide, by decide⟩

/-! ## Temporal merge (`sort_data_for_rra`, lines 1425-1498)

Value arrays are `Int → α` (the integer and double branches run the same
loop, so the embedding is polymorphic in the sample type); timestamp
arrays are `Int → Int`.  The output array is initialised as a copy of the
destination (`int_tmp[i] = int_rra[i]`) and the loop conditionally
overwrites slot `i`; since distinct iterations touch distinct slots, the
result is the slot-wise expression below.  Note the two reads the C code
performs: the window bounds come from `time_rra[file_offset+1]` and
`time_rra[file_offset]`, the guard tests `time_csv[i]`, and the key
searched for is `time_rra[i]` over the window `[0, n_samples]`. -/

/-- `sort_data_for_rra(data, subset, data_csv, data_rra, time_csv, time_rra)`. -/
def sort_data_for_rra (α : Type) (n : Nat) (fo : Int) (data_csv data_rra : Int → α)
    (time_csv time_rra : Int → Int) : List α :=
  let t_min := time_rra (fo + 1)
  let t_max := time_rra fo
  (List.range n).map (fun i : Nat =>
    if t_min ≤ time_csv (i : Int) ∧ time_csv (i : Int) ≤ t_max then
      let index := search time_csv 0 (n : Int) (time_rra (i : Int))
      if 0 ≤ index then data_csv index else data_rra (i : Int)
    else data_rra (i : Int))

/-- An in-heap array holding the list `xs` at indices `0 .. xs.length - 1`;
any other index reads the surrounding heap content `g`. -/
def arrOf (xs : List Int) (g : Int → Int) : Int → Int :=
  fun i => if 0 ≤ i ∧ i < (xs.length : Int) then xs.getD i.toNat 0 else g i

/-- **C5.** Merge idempotence: if no entry of the import timestamp array
lies within the destination's valid window
`[time_rra[file_offset+1], time_rra[file_offset]]`, the guard
`time_csv[i] >= t_min && time_csv[i] <= t_max` fails at every slot and the
output equals the destination value array slot for slot. -/
theorem C5_merge_idempotent (α : Type) (n : Nat) (fo : Int)
    (data_csv data_rra : Int → α) (time_csv time_rra : Int → Int)
    (hwin : ∀ i : Nat, i < n →
      ¬(time_rra (fo + 1) ≤ time_csv i ∧ time_csv i ≤ time_rra fo)) :
    sort_data_for_rra α n fo data_csv data_rra time_csv time_rra =
      (List.range n).map (fun i : Nat => data_rra (i : Int)) := by
  unfold sort_data_for_rra
  apply List.map_congr_left
  intro i hi
  rw [List.mem_range] at hi
  simp [hwin i hi]

/-- Witness for `C5_merge_idempotent`: a destination window `[100, 200]`
and an import whose two timestamps `300` and `0` both lie outside it. -/
theorem C5_merge_idempotent_witness :
    (∀ i : Nat, i < 2 →
      ¬((arrOf [200, 100] (fun _ => 0)) (0 + 1) ≤ (arrOf [300, 0] (fun _ => 0)) i ∧
        (arrOf [300, 0] (fun _ => 0)) i ≤ (arrOf [200, 100] (fun _ => 0)) 0)) ∧
    sort_data_for_rra Int 2 0 (fun _ => 42) (fun i => i)
      (arrOf [300, 0] (fun _ => 0)) (arrOf [200, 100] (fun _ => 0)) =
      (List.range 2).map (fun i => (i : Int)) := by
  refine ⟨by decide, C5_merge_idempotent Int 2 0 _ _ _ _ (by decide)⟩

/-- **C1 (failing input).** Destination values `[13, 10, 11, 12]` at
timestamps `[400, 100, 200, 300]` with `file_offset = 0` (the slot holding
`400`, the layout `create_rra_time` itself produces for this buffer), and
an import of the single pair `(200, 99)` — after the cutoff filter the
`calloc`-backed import arrays hold `[200, 0, 0, 0]` and `[99, 0, 0, 0]`.
The claim says the slot whose destination timestamp is `200` (slot `2`)
receives `99`; the code instead tests `time_csv[2] = 0` against the window
`[100, 400]`, skips the slot, and leaves the destination value `11` there.
The result is independent of the heap contents beyond the four arrays, so
the theorem quantifies over them. -/
theorem C1_merge_guard_bug (gcsv grra gtc gtr : Int → Int) :
    (sort_data_for_rra Int 4 0 (arrOf [99, 0, 0, 0] gcsv) (arrOf [13, 10, 11, 12] grra)
        (arrOf [200, 0, 0, 0] gtc) (arrOf [400, 100, 200, 300] gtr)).getD 2 0 = 11 ∧
    (11 : Int) ≠ 99 := by
  exact ⟨rfl, by decide⟩

/-! ## Search accesses made by the merge (claim C10)

`searchAccF` instruments the recursion of `search` with the list of array
indices it reads, including the short-circuit structure of the two `&&`
conditions (`arr[mid]` is always read; `arr[l]` is read by the
sortedness test; the second conjunct's read happens only when the first
conjunct holds). -/

/-- The indices of `arr` read by one run of the `search` recursion. -/
def searchAccF (a : Int → Int) (key : Int) : Nat → Int → Int → List Int
  | 0, _, _ => []
  | fuel + 1, l, h =>
    if l > h then []
    else
      let mid := (l + h) / 2
      if a mid = key then [mid]
      else if a l ≤ a mid then
        [mid, l] ++ (if key ≥ a l then [mid] else []) ++
          (if key ≥ a l ∧ key ≤ a mid then searchAccF a key fuel l (mid - 1)
           else searchAccF a key fuel (mid + 1) h)
      else
        [mid, l] ++ (if key ≥ a mid then [h] else []) ++
          (if key ≥ a mid ∧ key ≤ a h then searchAccF a key fuel (mid + 1) h
           else searchAccF a key fuel l (mid - 1))

/-- The indices of `arr` read by `search(arr, l, h, key)`, with the same
fuel as `search` itself. -/
def searchAcc (a : Int → Int) (l h key : Int) : List Int :=
  searchAccF a key (h + 1 - l).toNat l h

/-- The import-array indices read by the calls
`search(time_csv, 0, n_samples, time_rra[i])` that `sort_data_for_rra`
makes (one per slot whose guard passes). -/
def sort_data_search_accesses (n : Nat) (fo : Int) (time_csv time_rra : Int → Int) :
    List Int :=
  let t_min := time_rra (fo + 1)
  let t_max := time_rra fo
  ((List.range n).map (fun i : Nat =>
    if t_min ≤ time_csv (i : Int) ∧ time_csv (i : Int) ≤ t_max then
      searchAcc time_csv 0 (n : Int) (time_rra (i : Int))
    else [])).flatten

theorem searchAccF_succ (a : Int → Int) (key : Int) (f : Nat) (l h : Int) :
    searchAccF a key (f + 1) l h =
      (if l > h then []
      else
        let mid := (l + h) / 2
        if a mid = key then [mid]
        else if a l ≤ a mid then
          [mid, l] ++ (if key ≥ a l then [mid] else []) ++
            (if key ≥ a l ∧ key ≤ a mid then searchAccF a key f l (mid - 1)
             else searchAccF a key f (mid + 1) h)
        else
          [mid, l] ++ (if key ≥ a mid then [h] else []) ++
            (if key ≥ a mid ∧ key ≤ a h then searchAccF a key f (mid + 1) h
             else searchAccF a key f l (mid - 1))) := rfl

/-- **C10 (failing input).** A merge with `n_samples = 2`,
`file_offset = 0`, destination timestamps `[200, 100]` and import
timestamps `[100, 150]`: slot `0` passes the guard
(`100 ∈ [100, 200]`), and the call `search(time_csv, 0, 2, 200)` recurses
from window `[0, 2]` to `[2, 2]`, where it reads `time_csv[2]` — index
`n_samples`, one past the end of the `calloc(2, ...)` allocation.  The
access list therefore contains `2`, refuting the claim that every index
read lies in `0 .. n_samples - 1`; this holds for every content of the
heap beyond the two arrays. -/
theorem C10_search_oob (gtc gtr : Int → Int) :
    2 ∈ sort_data_search_accesses 2 0 (arrOf [100, 150] gtc) (arrOf [200, 100] gtr) ∧
    ¬(∀ j ∈ sort_data_search_accesses 2 0 (arrOf [100, 150] gtc) (arrOf [200, 100] gtr),
        0 ≤ j ∧ j < 2) := by
  have h22 : ∀ f : Nat, 2 ∈ searchAccF (arrOf [100, 150] gtc) 200 (f + 1) 2 2 := by
    intro f
    rw [searchAccF_succ]
    norm_num
    split <;> simp
  have hL : sort_data_search_accesses 2 0 (arrOf [100, 150] gtc) (arrOf [200, 100] gtr) =
      searchAcc (arrOf [100, 150] gtc) 0 2 200 ++
        (searchAcc (arrOf [100, 150] gtc) 0 2 100 ++ []) := by
    simp only [sort_data_search_accesses, List.range_succ, List.range_zero]
    norm_num [arrOf]
  have hstep : searchAcc (arrOf [100, 150] gtc) 0 2 200 =
      [1, 0] ++ [1] ++ searchAccF (arrOf [100, 150] gtc) 200 2 2 2 := by
    rw [show searchAcc (arrOf [100, 150] gtc) 0 2 200 =
      searchAccF (arrOf [100, 150] gtc) 200 (2 + 1) 0 2 from rfl, searchAccF_succ]
    norm_num [arrOf]
  have hmem : 2 ∈ sort_data_search_accesses 2 0 (arrOf [100, 150] gtc)
      (arrOf [200, 100] gtr) := by
    rw [hL, hstep]
    have h1 := h22 1
    norm_num at h1 ⊢
    tauto
  exact ⟨hmem, fun hall => by have h2 := (hall 2 hmem).2; omega⟩

/-! ## Correctness of `search` on rotated-sorted windows (claim C3)

A sorted-and-rotated array with distinct elements is a rotation of a
strictly increasing list.  The proof works with the window invariant
`RotWin a l h`: the window splits at a descent position `d` into two
strictly increasing runs, every element of the second run being smaller
than every element of the first.  Every contiguous window of a rotated
strictly-sorted array satisfies the invariant, and the invariant is
preserved by the windows the recursion of `search` descends into. -/

/-- `xs` is a rotation of a strictly increasing list. -/
def IsRotatedSorted (xs : List Int) : Prop :=
  ∃ ys zs, xs = ys ++ zs ∧ List.Chain' (· < ·) (zs ++ ys)

/-- Window invariant of the pivoted search: on `[l, h]` the array splits at
a descent `d` into two strictly increasing runs, with every element of the
second run below every element of the first. -/
def RotWin (a : Int → Int) (l h : Int) : Prop :=
  ∃ d, l ≤ d ∧ d ≤ h ∧
    (∀ i j, l ≤ i → i < j → j ≤ d → a i < a j) ∧
    (∀ i j, d + 1 ≤ i → i < j → j ≤ h → a i < a j) ∧
    (∀ i j, l ≤ i → i ≤ d → d + 1 ≤ j → j ≤ h → a j < a i)

theorem RotWin.sub {a : Int → Int} {l h l2 h2 : Int} (hr : RotWin a l h)
    (hll : l ≤ l2) (hlh2 : l2 ≤ h2) (hhh : h2 ≤ h) : RotWin a l2 h2 := by
  obtain ⟨d, hd1, hd2, hA, hB, hC⟩ := hr
  by_cases hdl : d < l2
  · refine ⟨h2, hlh2, le_refl h2, ?_, ?_, ?_⟩
    · intro i j hi hij hj; exact hB i j (by omega) hij (by omega)
    · intro i j hi hij hj; omega
    · intro i j hi1 hi2 hj1 hj2; omega
  · by_cases hdh : d ≤ h2
    · exact ⟨d, by omega, hdh, fun i j hi hij hj => hA i j (by omega) hij hj,
        fun i j hi hij hj => hB i j hi hij (by omega),
        fun i j hi1 hi2 hj1 hj2 => hC i j (by omega) hi2 hj1 (by omega)⟩
    · refine ⟨h2, hlh2, le_refl h2, ?_, ?_, ?_⟩
      · intro i j hi hij hj; exact hA i j (by omega) hij (by omega)
      · intro i j hi hij hj; omega
      · intro i j hi1 hi2 hj1 hj2; omega

/-- Soundness: `search` returns `-1` or an index inside `[l, h]` at which
the array holds `key`. -/
theorem searchF_sound (a : Int → Int) (key : Int) :
    ∀ (fuel : Nat) (l h : Int),
      searchF a key fuel l h = -1 ∨
      (l ≤ searchF a key fuel l h ∧ searchF a key fuel l h ≤ h ∧
        a (searchF a key fuel l h) = key) := by
  intro fuel
  induction fuel with
  | zero => intro l h; left; rfl
  | succ f ih =>
      intro l h
      by_cases hlh : l > h
      · left; simp [searchF, hlh]
      · have hm1 : l ≤ (l + h) / 2 := by omega
        have hm2 : (l + h) / 2 ≤ h := by omega
        simp only [searchF, if_neg hlh]
        by_cases he : a ((l + h) / 2) = key
        · rw [if_pos he]; right; exact ⟨hm1, hm2, he⟩
        · rw [if_neg he]
          by_cases hs : a l ≤ a ((l + h) / 2)
          · rw [if_pos hs]
            split
            · rcases ih l ((l + h) / 2 - 1) with h1 | ⟨h1, h2, h3⟩
              · left; exact h1
              · right; exact ⟨h1, by omega, h3⟩
            · rcases ih ((l + h) / 2 + 1) h with h1 | ⟨h1, h2, h3⟩
              · left; exact h1
              · right; exact ⟨by omega, h2, h3⟩
          · rw [if_neg hs]
            split
            · rcases ih ((l + h) / 2 + 1) h with h1 | ⟨h1, h2, h3⟩
              · left; exact h1
              · right; exact ⟨by omega, h2, h3⟩
            · rcases ih l ((l + h) / 2 - 1) with h1 | ⟨h1, h2, h3⟩
              · left; exact h1
              · right; exact ⟨h1, by omega, h3⟩

/-- Completeness: on a window satisfying the invariant, if `key` occurs in
`[l, h]` then `search` does not answer `-1`. -/
theorem searchF_complete (a : Int → Int) (key : Int) :
    ∀ (fuel : Nat) (l h : Int), (h + 1 - l).toNat ≤ fuel → 0 ≤ l → RotWin a l h →
      ∀ p, l ≤ p → p ≤ h → a p = key → searchF a key fuel l h ≠ -1 := by
  intro fuel
  induction fuel with
  | zero => intro l h hsz hl0 hr p hp1 hp2 hpk; omega
  | succ f ih =>
      intro l h hsz hl0 hr p hp1 hp2 hpk
      have hlh : ¬l > h := by omega
      have hm1 : l ≤ (l + h) / 2 := by omega
      have hm2 : (l + h) / 2 ≤ h := by omega
      simp only [searchF, if_neg hlh]
      set mid := (l + h) / 2 with hmiddef
      by_cases he : a mid = key
      · rw [if_pos he]; omega
      · rw [if_neg he]
        have hr2 := hr
        obtain ⟨d, hd1, hd2, hA, hB, hC⟩ := hr2
        have hpm : p ≠ mid := fun hpm => he (hpm ▸ hpk)
        by_cases hs : a l ≤ a mid
        · rw [if_pos hs]
          have hmd : mid ≤ d := by
            by_contra hcon
            have hcm : a mid < a l := hC l mid (le_refl l) hd1 (by omega) hm2
            omega
          by_cases hk : key ≥ a l ∧ key ≤ a mid
          · rw [if_pos hk]
            have hple : p ≤ mid - 1 := by
              by_contra hcon
              have hpge : mid + 1 ≤ p := by omega
              by_cases hpd : p ≤ d
              · have hx : a mid < a p := hA mid p hm1 (by omega) hpd
                omega
              · have hx : a p < a l := hC l p (le_refl l) hd1 (by omega) hp2
                omega
            exact ih l (mid - 1) (by omega) hl0
              (hr.sub (le_refl l) (by omega) (by omega)) p hp1 hple hpk
          · rw [if_neg hk]
            have hpge : mid + 1 ≤ p := by
              by_contra hcon
              have hple : p < mid := by omega
              have h1 : a l ≤ a p := by
                rcases eq_or_lt_of_le hp1 with heq | hlt
                · rw [← heq]
                · exact le_of_lt (hA l p (le_refl l) hlt (by omega))
              have h2 : a p < a mid := hA p mid hp1 hple hmd
              exact hk ⟨by omega, by omega⟩
            exact ih (mid + 1) h (by omega) (by omega)
              (hr.sub (by omega) (by omega) (le_refl h)) p hpge hp2 hpk
        · rw [if_neg hs]
          have hdm : d + 1 ≤ mid := by
            by_contra hcon
            have hmdd : mid ≤ d := by omega
            rcases eq_or_lt_of_le hm1 with heq | hlt
            · exact hs (by rw [← heq])
            · exact hs (le_of_lt (hA l mid (le_refl l) hlt hmdd))
          by_cases hk : key ≥ a mid ∧ key ≤ a h
          · rw [if_pos hk]
            have hpge : mid + 1 ≤ p := by
              by_contra hcon
              have hple : p < mid := by omega
              by_cases hpd : p ≤ d
              · have hx : a h < a p := hC p h hp1 hpd (by omega) (le_refl h)
                omega
              · have hx : a p < a mid := hB p mid (by omega) hple hm2
                omega
            exact ih (mid + 1) h (by omega) (by omega)
              (hr.sub (by omega) (by omega) (le_refl h)) p hpge hp2 hpk
          · rw [if_neg hk]
            have hple : p ≤ mid - 1 := by
              by_contra hcon
              have hpge : mid + 1 ≤ p := by omega
              have h1 : a mid < a p := hB mid p (by omega) (by omega) hp2
              have h2 : a p ≤ a h := by
                rcases eq_or_lt_of_le hp2 with heq | hlt
                · rw [heq]
                · exact le_of_lt (hB p h (by omega) hlt (le_refl h))
              exact hk ⟨by omega, by omega⟩
            exact ih l (mid - 1) (by omega) hl0
              (hr.sub (le_refl l) (by omega) (by omega)) p hp1 hple hpk

/-- A strictly sorted list satisfies the window invariant on its whole
index range (descent at the last index, second run empty). -/
theorem rotwin_of_pairwise (xs : List Int)
    (hpw : List.Pairwise (· < ·) xs) (hne : xs ≠ []) :
    RotWin (fun i : Int => xs.getD i.toNat 0) 0 ((xs.length : Int) - 1) := by
  have hlen : 0 < xs.length := List.length_pos.mpr hne
  refine ⟨(xs.length : Int) - 1, by omega, le_refl _, ?_, ?_, ?_⟩
  · intro i j hi hij hj
    have hi2 : i.toNat < xs.length := by omega
    have hj2 : j.toNat < xs.length := by omega
    have hlt := List.pairwise_iff_getElem.mp hpw i.toNat j.toNat hi2 hj2 (by omega)
    show xs.getD i.toNat 0 < xs.getD j.toNat 0
    rw [List.getD_eq_getElem _ _ hi2, List.getD_eq_getElem _ _ hj2]
    exact hlt
  · intro i j hi hij hj; omega
  · intro i j _ _ hj1 hj2; omega

/-- Every rotated strictly-sorted array satisfies the window invariant on
its whole index range. -/
theorem rotwin_of_rotated (xs : List Int) (hrot : IsRotatedSorted xs) (hne : xs ≠ []) :
    RotWin (fun i : Int => xs.getD i.toNat 0) 0 ((xs.length : Int) - 1) := by
  obtain ⟨ys, zs, hxs, hchain⟩ := hrot
  have hpw : List.Pairwise (· < ·) (zs ++ ys) := List.chain'_iff_pairwise.mp hchain
  rcases List.pairwise_append.mp hpw with ⟨hzs, hys, hcross⟩
  subst hxs
  rcases eq_or_ne ys [] with hys0 | hys0
  · subst hys0
    exact rotwin_of_pairwise _ (by simpa using hpw) hne
  · rcases eq_or_ne zs [] with hzs0 | hzs0
    · subst hzs0
      exact rotwin_of_pairwise _ (by simpa using hpw) (by simpa using hne)
    · have hyl : 0 < ys.length := List.length_pos.mpr hys0
      have hzl : 0 < zs.length := List.length_pos.mpr hzs0
      have hlen : (ys ++ zs).length = ys.length + zs.length := by simp
      refine ⟨(ys.length : Int) - 1, by omega, by omega, ?_, ?_, ?_⟩
      · intro i j hi hij hj
        have hi2 : i.toNat < ys.length := by omega
        have hj2 : j.toNat < ys.length := by omega
        have hix : i.toNat < (ys ++ zs).length := by omega
        have hjx : j.toNat < (ys ++ zs).length := by omega
        show (ys ++ zs).getD i.toNat 0 < (ys ++ zs).getD j.toNat 0
        rw [List.getD_eq_getElem _ _ hix, List.getD_eq_getElem _ _ hjx,
          List.getElem_append_left hi2, List.getElem_append_left hj2]
        exact List.pairwise_iff_getElem.mp hys i.toNat j.toNat hi2 hj2 (by omega)
      · intro i j hi hij hj
        have hi2 : ys.length ≤ i.toNat := by omega
        have hj2 : ys.length ≤ j.toNat := by omega
        have hix : i.toNat < (ys ++ zs).length := by omega
        have hjx : j.toNat < (ys ++ zs).length := by omega
        show (ys ++ zs).getD i.toNat 0 < (ys ++ zs).getD j.toNat 0
        rw [List.getD_eq_getElem _ _ hix, List.getD_eq_getElem _ _ hjx,
          List.getElem_append_right hi2, List.getElem_append_right hj2]
        exact List.pairwise_iff_getElem.mp hzs (i.toNat - ys.length)
          (j.toNat - ys.length) (by omega) (by omega) (by omega)
      · intro i j hi1 hi2 hj1 hj2
        have hi3 : i.toNat < ys.length := by omega
        have hj3 : ys.length ≤ j.toNat := by omega
        have hix : i.toNat < (ys ++ zs).length := by omega
        have hjx : j.toNat < (ys ++ zs).length := by omega
        show (ys ++ zs).getD j.toNat 0 < (ys ++ zs).getD i.toNat 0
        rw [List.getD_eq_getElem _ _ hix, List.getD_eq_getElem _ _ hjx,
          List.getElem_append_left hi3, List.getElem_append_right hj3]
        exact hcross _ (List.getElem_mem _) _ (List.getElem_mem _)

/-- **C3.** On every rotated-sorted array of distinct integers and every
bounds pair `0 ≤ l ≤ h < length`, `search(arr, l, h, key)` returns an
index within `[l, h]` at which the array holds `key` whenever `key` occurs
in `arr[l..h]`, and returns `-1` — distinct from every valid index, in
particular from index `0` — whenever it does not. -/
theorem C3_search_correct (xs : List Int) (l h key : Int)
    (hrot : IsRotatedSorted xs) (hl0 : 0 ≤ l) (hlh : l ≤ h) (hh : h < (xs.length : Int)) :
    ((∃ i, l ≤ i ∧ i ≤ h ∧ xs.getD i.toNat 0 = key) →
      l ≤ search (fun i : Int => xs.getD i.toNat 0) l h key ∧
      search (fun i : Int => xs.getD i.toNat 0) l h key ≤ h ∧
      xs.getD (search (fun i : Int => xs.getD i.toNat 0) l h key).toNat 0 = key) ∧
    ((∀ i, l ≤ i → i ≤ h → xs.getD i.toNat 0 ≠ key) →
      search (fun i : Int => xs.getD i.toNat 0) l h key = -1) := by
  have hne : xs ≠ [] := by
    intro hempty
    rw [hempty] at hh
    simp at hh
    omega
  have hwin : RotWin (fun i : Int => xs.getD i.toNat 0) l h :=
    (rotwin_of_rotated xs hrot hne).sub hl0 hlh (by omega)
  constructor
  · rintro ⟨p, hp1, hp2, hpk⟩
    have hne1 := searchF_complete (fun i : Int => xs.getD i.toNat 0) key
      ((h + 1 - l).toNat) l h (le_refl _) hl0 hwin p hp1 hp2 hpk
    rcases searchF_sound (fun i : Int => xs.getD i.toNat 0) key ((h + 1 - l).toNat) l h with
      hbad | ⟨h1, h2, h3⟩
    · exact absurd hbad hne1
    · exact ⟨h1, h2, h3⟩
  · intro hnone
    rcases searchF_sound (fun i : Int => xs.getD i.toNat 0) key ((h + 1 - l).toNat) l h with
      hgood | ⟨h1, h2, h3⟩
    · exact hgood
    · exact absurd h3 (hnone _ h1 h2)

/-- Witness for `C3_search_correct`: the boundary rotation `[4, 5, 1, 2, 3]`
(rotation of `[1, 2, 3, 4, 5]`) over its full index range, with the key `2`
present at index `3`. -/
theorem C3_search_correct_witness :
    IsRotatedSorted [4, 5, 1, 2, 3] ∧ (0 : Int) ≤ 0 ∧ (0 : Int) ≤ 4 ∧
      (4 : Int) < (([4, 5, 1, 2, 3] : List Int).length : Int) ∧
      (0 ≤ search (fun i : Int => ([4, 5, 1, 2, 3] : List Int).getD i.toNat 0) 0 4 2 ∧
        search (fun i : Int => ([4, 5, 1, 2, 3] : List Int).getD i.toNat 0) 0 4 2 ≤ 4 ∧
        ([4, 5, 1, 2, 3] : List Int).getD
          (search (fun i : Int => ([4, 5, 1, 2, 3] : List Int).getD i.toNat 0) 0 4 2).toNat
          0 = 2) := by
  have hrot : IsRotatedSorted [4, 5, 1, 2, 3] :=
    ⟨[4, 5], [1, 2, 3], rfl, by norm_num [List.chain'_cons]⟩
  exact ⟨hrot, by decide, by decide, by decide,
    (C3_search_correct [4, 5, 1, 2, 3] 0 4 2 hrot (by decide) (by decide) (by decide)).1
      ⟨3, by decide, by decide, by decide⟩⟩

/-! ## Binary metadata decoder (`read_dat_file`, lines 966-1111)

The `.dat` stream is a list of bytes.  `fread(&x, sizeof(int), 1, fp)`
returns 1 item exactly when four bytes are available; on a short read it
consumes the remaining bytes, deposits them in the low-order byte positions
of the `calloc`-zeroed destination, and returns 0.  `fread(buf, 1, len, fp)`
returns the number of bytes obtained, `min len available`.  Multi-byte
integers are little-endian; a 4-byte value is reinterpreted as a signed C
`int` (`toInt32`).  The two 8-byte `double` fields of the Real layout are
carried as opaque byte strings (their numeric value is never used by the
core).  The decode loop runs until EOF, placeholder, or a corrupt trailing
record — the loop body consumes at least one byte whenever it continues,
so `length + 1` fuel always covers every iteration the C loop performs. -/

/-- Little-endian value of a byte string. -/
def leVal : List Nat → Nat
  | [] => 0
  | b :: bs => b + 256 * leVal bs

/-- Reinterpret a little-endian accumulated value as a signed 32-bit C
`int`. -/
def toInt32 (n : Nat) : Int :=
  if n % 4294967296 < 2147483648 then (n % 4294967296 : Int)
  else (n % 4294967296 : Int) - 4294967296

/-- The four little-endian bytes of a C `int` value. -/
def i32 (v : Int) : List Nat :=
  [(v % 4294967296).toNat % 256, (v % 4294967296).toNat / 256 % 256,
   (v % 4294967296).toNat / 256 / 256 % 256,
   (v % 4294967296).toNat / 256 / 256 / 256 % 256]

/-- `fread(&x, sizeof(int), 1, fp)`: value deposited (partial bytes land in
the low positions of the zeroed destination), items read (0 or 1), rest of
the stream. -/
def rdInt (s : List Nat) : Int × Nat × List Nat :=
  (toInt32 (leVal (s.take 4)), if 4 ≤ s.length then 1 else 0, s.drop 4)

/-- `fread(buf, 1, len, fp)`: bytes obtained, their count, rest of the
stream (a negative `len` is not produced by any stream these theorems deal
with; `Int.toNat` maps it to 0). -/
def rdStr (len : Int) (s : List Nat) : List Nat × Nat × List Nat :=
  (s.take len.toNat, min len.toNat s.length, s.drop len.toNat)

/-- One decoded Buffer record (C struct `dat_sub_s`; the `next` link is
represented by the position in the decoded list). -/
structure DatSub where
  unk_0 : Int
  unk_1 : Int
  unk_2 : Int
  valueBytes : List Nat
  dividerBytes : List Nat
  timestamp_0 : Int
  timestamp_1 : Int
  minSamplesPerBin : Int
  binL_len : Int
  binLength : List Nat
  file_offset : Int
  n_samples : Int
  unk_3 : Int
  int_len : Int
  interval : List Nat
  cons_len : Int
  consolidator : List Nat
deriving DecidableEq

/-- The counted reads of one Buffer record (everything after the
kind-dependent prefix): nine `int` reads and three length-prefixed string
reads, the item/byte counts accumulated in `cnt` exactly as the C code
sums them, and `required = cons_len + int_len + binL_len + 9`. -/
def readSubTail (u0 u1 u2 : Int) (vb db : List Nat) (s3 : List Nat) :
    DatSub × Int × Int × List Nat :=
  let (ts0, c1, s4) := rdInt s3
  let (ts1, c2, s5) := rdInt s4
  let (msb, c3, s6) := rdInt s5
  let (bl, c4, s7) := rdInt s6
  let (blb, c5, s8) := rdStr bl s7
  let (fo, c6, s9) := rdInt s8
  let (ns, c7, s10) := rdInt s9
  let (u3, c8, s11) := rdInt s10
  let (il, c9, s12) := rdInt s11
  let (ib, c10, s13) := rdStr il s12
  let (cl, c11, s14) := rdInt s13
  let (cb, c12, s15) := rdStr cl s14
  (⟨u0, u1, u2, vb, db, ts0, ts1, msb, bl, blb, fo, ns, u3, il, ib, cl, cb⟩,
    (c1 : Int) + c2 + c3 + c4 + c5 + c6 + c7 + c8 + c9 + c10 + c11 + c12,
    cl + il + bl + 9,
    s15)

/-- One Buffer record read: the Integer layout starts with three reserved
`int`s, the Real layout with two 8-byte doubles (`value`, `divider`); the
other fields get the C `calloc`/assignment defaults. -/
def readSub : Bool → List Nat → DatSub × Int × Int × List Nat
  | true, s =>
    let (u0, _, s1) := rdInt s
    let (u1, _, s2) := rdInt s1
    let (u2, _, s3) := rdInt s2
    readSubTail u0 u1 u2 [] [] s3
  | false, s =>
    let vb := s.take 8
    let s1 := s.drop 8
    let db := s1.take 8
    let s2 := s1.drop 8
    readSubTail 0 0 0 vb db s2

/-- The Buffer decode loop of `read_dat_file`: read a record; if fewer
items were obtained than the record's declared lengths require, report the
corruption, drop the partial record and stop; otherwise stop after this
record on end of stream, or continue.  The Boolean is the
partly-corrupted diagnostic. -/
def read_dat_loop (isInt : Bool) : Nat → List Nat → List DatSub × Bool
  | 0, _ => ([], false)
  | fuel + 1, s =>
    match readSub isInt s with
    | (sub, cnt, required, s2) =>
      if cnt < required then ([], true)
      else if s2 = [] then ([sub], false)
      else
        let rest := read_dat_loop isInt fuel s2
        (sub :: rest.1, rest.2)

/-- The 17-byte magic token `"hcb_rrd_09082011A"` as bytes. -/
def MAGIC : List Nat :=
  [104, 99, 98, 95, 114, 114, 100, 95, 48, 57, 48, 56, 50, 48, 49, 49, 65]

/-- `"placeholder"` as bytes. -/
def placeholderBytes : List Nat :=
  [112, 108, 97, 99, 101, 104, 111, 108, 100, 101, 114]

/-- `"integer"` as bytes. -/
def integerBytes : List Nat := [105, 110, 116, 101, 103, 101, 114]

/-- The C string a byte buffer denotes: its bytes up to the first NUL
(the on-disk strings carry their terminating NUL inside their declared
length, which is what the code's `strcmp` calls rely on). -/
def cstr (buf : List Nat) : List Nat := buf.takeWhile (fun b => b != 0)

/-- `strcmp(sampleType, "integer") == 0`, the layout selector. -/
def isIntegerTag (tb : List Nat) : Bool := cstr tb == integerBytes

/-- The decoded `.dat` file (C struct `dat_s`; `n_sets` equals the length
of the decoded subset list on every path of the C code). -/
structure DatS where
  magic : List Nat
  devUuid_len : Int
  deviceUuid : List Nat
  devVar_len : Int
  deviceVar : List Nat
  devSvc_len : Int
  deviceSvc : List Nat
  sampleT_len : Int
  sampleType : List Nat
  n_sets : Int
  subsets : List DatSub
  badMagic : Bool
  corrupt : Bool
deriving DecidableEq

/-- `read_dat_file`: check the magic token, read the four length-prefixed
device strings, return zero Buffers for a placeholder device, otherwise
run the Buffer decode loop on the remaining bytes. -/
def read_dat_file (s : List Nat) : DatS :=
  let magic := s.take 17
  let s1 := s.drop 17
  if magic = MAGIC then
    let (ul, _, s2) := rdInt s1
    let (ub, _, s3) := rdStr ul s2
    let (vl, _, s4) := rdInt s3
    let (vb, _, s5) := rdStr vl s4
    let (sl, _, s6) := rdInt s5
    let (sb, _, s7) := rdStr sl s6
    let (tl, _, s8) := rdInt s7
    let (tb, _, s9) := rdStr tl s8
    if cstr ub = placeholderBytes then
      ⟨magic, ul, ub, vl, vb, sl, sb, tl, tb, 0, [], false, false⟩
    else
      let r := read_dat_loop (isIntegerTag tb) (s9.length + 1) s9
      ⟨magic, ul, ub, vl, vb, sl, sb, tl, tb, (r.1.length : Int), r.1, false, r.2⟩
  else
    ⟨magic, 0, [], 0, [], 0, [], 0, [], 0, [], true, false⟩

/-! ### An encoder for validly-constructed metadata streams (spec section 4.1)

The round-trip and truncation claims quantify over validly-constructed
byte sequences; these are produced by the encoder below from the field
values to be encoded.  Strings are stored with their terminating NUL
included in the length prefix, as the original format does. -/

/-- A length-prefixed string field: 4-byte little-endian length
(content length + 1) followed by the content and its NUL. -/
def strE (content : List Nat) : List Nat :=
  i32 ((content.length : Int) + 1) ++ (content ++ [0])

/-- The field values of one Buffer record to encode. -/
structure SubInput where
  unk_0 : Int
  unk_1 : Int
  unk_2 : Int
  valueBytes : List Nat
  dividerBytes : List Nat
  timestamp_0 : Int
  timestamp_1 : Int
  minSamplesPerBin : Int
  binLength : List Nat
  file_offset : Int
  n_samples : Int
  unk_3 : Int
  interval : List Nat
  consolidator : List Nat
deriving DecidableEq

/-- The field values of a metadata file to encode. -/
structure DatInput where
  uuid : List Nat
  deviceVar : List Nat
  deviceSvc : List Nat
  sampleType : List Nat
  subs : List SubInput
deriving DecidableEq

/-- The kind-independent tail of one encoded Buffer record
(section 4.1). -/
def encSubTail (r : SubInput) : List Nat :=
  i32 r.timestamp_0 ++ i32 r.timestamp_1 ++ i32 r.minSamplesPerBin ++
    strE r.binLength ++ i32 r.file_offset ++ i32 r.n_samples ++ i32 r.unk_3 ++
    strE r.interval ++ strE r.consolidator

/-- Encode one Buffer record in the layout of its sample kind
(section 4.1). -/
def encSub : Bool → SubInput → List Nat
  | true, r => i32 r.unk_0 ++ i32 r.unk_1 ++ i32 r.unk_2 ++ encSubTail r
  | false, r => r.valueBytes ++ r.dividerBytes ++ encSubTail r

/-- Encode a whole metadata file: magic token, four length-prefixed
strings, then the Buffer records laid out per the sample kind. -/
def encode_dat (d : DatInput) : List Nat :=
  MAGIC ++ strE d.uuid ++ strE d.deviceVar ++ strE d.deviceSvc ++ strE d.sampleType ++
    (d.subs.map (encSub (isIntegerTag (d.sampleType ++ [0])))).flatten

/-- A C `int` value representable without wraparound. -/
def InRange32 (v : Int) : Prop := -2147483648 ≤ v ∧ v < 2147483648

/-- Conditions under which a record's field values encode without loss:
integer fields in signed-32-bit range, string lengths below `2^31`, and
8-byte double images for the Real layout. -/
def ValidSub (isInt : Bool) (r : SubInput) : Prop :=
  InRange32 r.timestamp_0 ∧ InRange32 r.timestamp_1 ∧ InRange32 r.minSamplesPerBin ∧
  InRange32 r.file_offset ∧ InRange32 r.n_samples ∧ InRange32 r.unk_3 ∧
  InRange32 r.unk_0 ∧ InRange32 r.unk_1 ∧ InRange32 r.unk_2 ∧
  (isInt = false → r.valueBytes.length = 8 ∧ r.dividerBytes.length = 8) ∧
  (r.binLength.length : Int) + 1 < 2147483648 ∧
  (r.interval.length : Int) + 1 < 2147483648 ∧
  (r.consolidator.length : Int) + 1 < 2147483648

/-- A small complete Integer-layout Buffer record. -/
def c4record : SubInput := ⟨0, 0, 0, [], [], 1, 2, 3, [97], 4, 5, 6, [98], [99]⟩

/-- A validly-formed metadata stream holding five complete Buffer
records. -/
def c4stream : List Nat :=
  encode_dat ⟨[117], [118], [119], integerBytes, List.replicate 5 c4record⟩

/-- **C4 (failing input).** The decode loop of `read_dat_file` has no
4-buffer bound: it only stops on end of stream, placeholder, or a corrupt
trailing record.  On a well-formed stream holding five Buffer records it
decodes all five — `n_sets = 5` and five subsets, although `dat_s`
declares `subset[N_SUBSETS]` with `N_SUBSETS = 4` (the fifth record is
written past the end of the array in C).  This refutes the claimed
at-most-4 bound and the claimed terminal state "having decoded 4
Buffers". -/
theorem C4_no_four_buffer_bound :
    (read_dat_file c4stream).subsets.length = 5 ∧
    (read_dat_file c4stream).n_sets = 5 ∧ ¬((5 : Int) ≤ 4) ∧
    (read_dat_file c4stream).corrupt = false := by
  set_option maxRecDepth 40000 in decide

/-- The record `readSub` recovers from `encSub`'s output. -/
def decSub : Bool → SubInput → DatSub
  | true, r =>
    ⟨r.unk_0, r.unk_1, r.unk_2, [], [],
     r.timestamp_0, r.timestamp_1, r.minSamplesPerBin,
     (r.binLength.length : Int) + 1, r.binLength ++ [0],
     r.file_offset, r.n_samples, r.unk_3,
     (r.interval.length : Int) + 1, r.interval ++ [0],
     (r.consolidator.length : Int) + 1, r.consolidator ++ [0]⟩
  | false, r =>
    ⟨0, 0, 0, r.valueBytes, r.dividerBytes,
     r.timestamp_0, r.timestamp_1, r.minSamplesPerBin,
     (r.binLength.length : Int) + 1, r.binLength ++ [0],
     r.file_offset, r.n_samples, r.unk_3,
     (r.interval.length : Int) + 1, r.interval ++ [0],
     (r.consolidator.length : Int) + 1, r.consolidator ++ [0]⟩

/-- The item count a complete record produces, which equals its
`required` value: nine `int` items plus the three declared string
lengths. -/
def reqOf (r : SubInput) : Int :=
  ((r.consolidator.length : Int) + 1) + (((r.interval.length : Int) + 1) +
    (((r.binLength.length : Int) + 1) + 9))

theorem i32_length (v : Int) : (i32 v).length = 4 := rfl

theorem leVal_i32 (v : Int) : leVal (i32 v) = (v % 4294967296).toNat := by
  simp only [i32, leVal]
  omega

theorem toInt32_i32 (v : Int) (h1 : -2147483648 ≤ v) (h2 : v < 2147483648) :
    toInt32 (leVal (i32 v)) = v := by
  rw [leVal_i32]
  unfold toInt32
  split <;> omega

theorem rdInt_enc (v : Int) (rest : List Nat) :
    rdInt (i32 v ++ rest) = (toInt32 (leVal (i32 v)), 1, rest) := by
  unfold rdInt
  rw [List.take_left' (i32_length v), List.drop_left' (i32_length v),
    if_pos (by simp [i32_length])]

theorem rdStr_strE (bs rest : List Nat) :
    rdStr ((bs.length : Int) + 1) (bs ++ 0 :: rest) = (bs ++ [0], bs.length + 1, rest) := by
  unfold rdStr
  have ht : ((bs.length : Int) + 1).toNat = bs.length + 1 := by omega
  have hlen : (bs ++ [0]).length = bs.length + 1 := by simp
  have hshape : bs ++ 0 :: rest = (bs ++ [0]) ++ rest := by simp
  rw [ht, hshape, List.take_left' hlen, List.drop_left' hlen]
  simp

theorem readSubTail_enc (u0 u1 u2 : Int) (vb db : List Nat) (r : SubInput) (rest : List Nat)
    (hts0 : InRange32 r.timestamp_0) (hts1 : InRange32 r.timestamp_1)
    (hmsb : InRange32 r.minSamplesPerBin) (hfo : InRange32 r.file_offset)
    (hns : InRange32 r.n_samples) (hu3 : InRange32 r.unk_3)
    (hbl : (r.binLength.length : Int) + 1 < 2147483648)
    (hil : (r.interval.length : Int) + 1 < 2147483648)
    (hcl : (r.consolidator.length : Int) + 1 < 2147483648) :
    readSubTail u0 u1 u2 vb db (encSubTail r ++ rest) =
      (⟨u0, u1, u2, vb, db, r.timestamp_0, r.timestamp_1, r.minSamplesPerBin,
        (r.binLength.length : Int) + 1, r.binLength ++ [0],
        r.file_offset, r.n_samples, r.unk_3,
        (r.interval.length : Int) + 1, r.interval ++ [0],
        (r.consolidator.length : Int) + 1, r.consolidator ++ [0]⟩,
       reqOf r, reqOf r, rest) := by
  have e1 := toInt32_i32 r.timestamp_0 hts0.1 hts0.2
  have e2 := toInt32_i32 r.timestamp_1 hts1.1 hts1.2
  have e3 := toInt32_i32 r.minSamplesPerBin hmsb.1 hmsb.2
  have e4 := toInt32_i32 r.file_offset hfo.1 hfo.2
  have e5 := toInt32_i32 r.n_samples hns.1 hns.2
  have e6 := toInt32_i32 r.unk_3 hu3.1 hu3.2
  have eb : toInt32 (leVal (i32 ((r.binLength.length : Int) + 1))) =
      (r.binLength.length : Int) + 1 := toInt32_i32 _ (by omega) hbl
  have ei : toInt32 (leVal (i32 ((r.interval.length : Int) + 1))) =
      (r.interval.length : Int) + 1 := toInt32_i32 _ (by omega) hil
  have ec : toInt32 (leVal (i32 ((r.consolidator.length : Int) + 1))) =
      (r.consolidator.length : Int) + 1 := toInt32_i32 _ (by omega) hcl
  simp only [encSubTail, strE, List.append_assoc, List.singleton_append, List.cons_append,
    List.nil_append, readSubTail, rdInt_enc, e1, e2, e3, e4, e5, e6, eb, ei, ec,
    rdStr_strE, reqOf, Prod.mk.injEq]
  refine ⟨trivial, ?_, ?_, trivial⟩ <;> push_cast <;> ring

theorem readSub_enc (isInt : Bool) (r : SubInput) (rest : List Nat) (hv : ValidSub isInt r) :
    readSub isInt (encSub isInt r ++ rest) = (decSub isInt r, reqOf r, reqOf r, rest) := by
  obtain ⟨hts0, hts1, hmsb, hfo, hns, hu3, hu0, hu1, hu2, hdbl, hbl, hil, hcl⟩ := hv
  cases isInt with
  | true =>
      have e7 := toInt32_i32 r.unk_0 hu0.1 hu0.2
      have e8 := toInt32_i32 r.unk_1 hu1.1 hu1.2
      have e9 := toInt32_i32 r.unk_2 hu2.1 hu2.2
      simp only [encSub, readSub, List.append_assoc, rdInt_enc, e7, e8, e9]
      rw [readSubTail_enc r.unk_0 r.unk_1 r.unk_2 [] [] r rest hts0 hts1 hmsb hfo hns
        hu3 hbl hil hcl]
      rfl
  | false =>
      obtain ⟨hv8, hd8⟩ := hdbl rfl
      simp only [encSub, readSub, List.append_assoc]
      rw [List.take_left' hv8, List.drop_left' hv8, List.take_left' hd8,
        List.drop_left' hd8,
        readSubTail_enc 0 0 0 r.valueBytes r.dividerBytes r rest hts0 hts1 hmsb hfo hns
          hu3 hbl hil hcl]
      rfl

theorem encSubTail_length (r : SubInput) :
    (encSubTail r).length =
      36 + (r.binLength.length + 1) + (r.interval.length + 1) +
        (r.consolidator.length + 1) := by
  simp [encSubTail, strE, i32]
  omega

theorem encSub_length_pos (isInt : Bool) (r : SubInput) : 0 < (encSub isInt r).length := by
  have h := encSubTail_length r
  cases isInt <;> simp [encSub] <;> omega

theorem read_dat_loop_enc (isInt : Bool) (rs : List SubInput)
    (hv : ∀ r ∈ rs, ValidSub isInt r) (hne : rs ≠ []) :
    ∀ fuel : Nat, ((rs.map (encSub isInt)).flatten).length < fuel →
      read_dat_loop isInt fuel ((rs.map (encSub isInt)).flatten) =
        (rs.map (decSub isInt), false) := by
  induction rs with
  | nil => exact absurd rfl hne
  | cons r rs ih =>
      intro fuel hfuel
      cases fuel with
      | zero => omega
      | succ f =>
          simp only [List.map_cons, List.flatten_cons] at hfuel ⊢
          simp only [read_dat_loop, readSub_enc isInt r _ (hv r (by simp)),
            if_neg (lt_irrefl (reqOf r))]
          cases rs with
          | nil => simp
          | cons r2 rs2 =>
              have hpos := encSub_length_pos isInt r2
              have hpos1 := encSub_length_pos isInt r
              have hne2 : encSub isInt r2 ++ ((rs2.map (encSub isInt)).flatten) ≠ [] := by
                intro hcontra
                have hlen := congrArg List.length hcontra
                simp only [List.length_append, List.length_nil] at hlen
                omega
              simp only [List.map_cons, List.flatten_cons] at hne2 ⊢
              rw [if_neg hne2]
              have ih2 := ih (fun q hq => hv q (by simp [hq])) (by simp) f (by
                simp only [List.map_cons, List.flatten_cons, List.length_append] at hfuel ⊢
                omega)
              simp only [List.map_cons, List.flatten_cons] at ih2
              rw [ih2]

theorem read_dat_file_enc (uuid dvar svc tag records : List Nat)
    (hu : (uuid.length : Int) + 1 < 2147483648)
    (hv2 : (dvar.length : Int) + 1 < 2147483648)
    (hs : (svc.length : Int) + 1 < 2147483648)
    (ht : (tag.length : Int) + 1 < 2147483648)
    (hpl : cstr (uuid ++ [0]) ≠ placeholderBytes) :
    read_dat_file (MAGIC ++ (strE uuid ++ (strE dvar ++ (strE svc ++ (strE tag ++ records))))) =
      ⟨MAGIC, (uuid.length : Int) + 1, uuid ++ [0],
       (dvar.length : Int) + 1, dvar ++ [0],
       (svc.length : Int) + 1, svc ++ [0],
       (tag.length : Int) + 1, tag ++ [0],
       (((read_dat_loop (isIntegerTag (tag ++ [0])) (records.length + 1) records).1.length : Int)),
       (read_dat_loop (isIntegerTag (tag ++ [0])) (records.length + 1) records).1,
       false,
       (read_dat_loop (isIntegerTag (tag ++ [0])) (records.length + 1) records).2⟩ := by
  have eU : toInt32 (leVal (i32 ((uuid.length : Int) + 1))) = (uuid.length : Int) + 1 :=
    toInt32_i32 _ (by omega) hu
  have eV : toInt32 (leVal (i32 ((dvar.length : Int) + 1))) = (dvar.length : Int) + 1 :=
    toInt32_i32 _ (by omega) hv2
  have eS : toInt32 (leVal (i32 ((svc.length : Int) + 1))) = (svc.length : Int) + 1 :=
    toInt32_i32 _ (by omega) hs
  have eT : toInt32 (leVal (i32 ((tag.length : Int) + 1))) = (tag.length : Int) + 1 :=
    toInt32_i32 _ (by omega) ht
  have hm17 : MAGIC.length = 17 := rfl
  unfold read_dat_file
  rw [List.take_left' hm17, List.drop_left' hm17, if_pos rfl]
  simp only [strE, List.append_assoc, List.singleton_append, List.cons_append,
    List.nil_append, rdInt_enc, eU, eV, eS, eT, rdStr_strE]
  rw [if_neg hpl]

/-- Conditions under which a whole metadata file's field values encode
without loss: header string lengths below `2^31`, a device id that is not
the placeholder sentinel, between one and four Buffer records, each with
losslessly encodable fields. -/
def ValidDat (d : DatInput) : Prop :=
  (d.uuid.length : Int) + 1 < 2147483648 ∧
  (d.deviceVar.length : Int) + 1 < 2147483648 ∧
  (d.deviceSvc.length : Int) + 1 < 2147483648 ∧
  (d.sampleType.length : Int) + 1 < 2147483648 ∧
  cstr (d.uuid ++ [0]) ≠ placeholderBytes ∧
  1 ≤ d.subs.length ∧ d.subs.length ≤ 4 ∧
  ∀ r ∈ d.subs, ValidSub (isIntegerTag (d.sampleType ++ [0])) r

/-- **C6.** Round-trip: decoding a validly-constructed metadata byte
sequence recovers exactly the encoded field values — device id, variable
name, service name, sample-kind tag (each with its length prefix and
terminating NUL), and for each Buffer its timestamps, min-samples-per-bin,
`binLength`, `file_offset`, `n_samples`, `interval` and `consolidator`
(along with the reserved pass-through fields) — for both the Integer and
the Real record layouts, with no corruption reported. -/
theorem C6_roundtrip (d : DatInput) (hd : ValidDat d) :
    read_dat_file (encode_dat d) =
      ⟨MAGIC, (d.uuid.length : Int) + 1, d.uuid ++ [0],
       (d.deviceVar.length : Int) + 1, d.deviceVar ++ [0],
       (d.deviceSvc.length : Int) + 1, d.deviceSvc ++ [0],
       (d.sampleType.length : Int) + 1, d.sampleType ++ [0],
       (d.subs.length : Int),
       d.subs.map (decSub (isIntegerTag (d.sampleType ++ [0]))), false, false⟩ := by
  obtain ⟨hu, hv2, hs, ht, hpl, h1, h4, hsubs⟩ := hd
  have hne : d.subs ≠ [] := by
    intro hcontra
    rw [hcontra] at h1
    simp at h1
  simp only [encode_dat, List.append_assoc]
  rw [read_dat_file_enc d.uuid d.deviceVar d.deviceSvc d.sampleType _ hu hv2 hs ht hpl,
    read_dat_loop_enc (isIntegerTag (d.sampleType ++ [0])) d.subs hsubs hne _
      (Nat.lt_succ_self _)]
  simp

/-! ### Truncated records (C7)

A record truncated mid-way yields fewer items than its declared lengths
require, so the decode loop reports the corruption and stops.  The count
bound is established by reading the truncated stream field by field. -/

theorem toInt32_small (n : Nat) (h : n < 2147483648) : toInt32 n = (n : Int) := by
  unfold toInt32
  split <;> omega


theorem leVal_i32_take (v : Int) (m : Nat) (hm : m ≤ 3) :
    leVal ((i32 v).take m) < 2147483648 := by
  interval_cases m <;> simp [i32, leVal] <;> omega


theorem val_at (v : Int) (Y : List Nat) (m : Nat) (h0 : 0 <= v) (h1 : v < 2147483648) :
    0 ≤ toInt32 (leVal (((i32 v ++ Y).take m).take 4)) ∧
      (4 ≤ m → toInt32 (leVal (((i32 v ++ Y).take m).take 4)) = v) := by
  rw [List.take_take]
  by_cases h4 : 4 ≤ m
  · have hmin : min 4 m = 4 := by omega
    rw [hmin, List.take_left' (i32_length v), toInt32_i32 v (by omega) h1]
    exact ⟨h0, fun _ => rfl⟩
  · have hmin : min 4 m = m := by omega
    rw [hmin, List.take_append_of_le_length (by rw [i32_length]; omega)]
    have hsmall := leVal_i32_take v m (by omega)
    rw [toInt32_small _ hsmall]
    exact ⟨by positivity, fun hc => absurd hc h4⟩


theorem truncation_count_bound
    (t1 TL bL iL cL : ℕ) (BL IL CL : ℤ)
    (e1 e2 e3 e4 e5 e6 e7 e8 e9 m5 m10 m12 : ℕ)
    (ht : t1 < TL)
    (hTlen : TL = 36 + (bL + 1) + (iL + 1) + (cL + 1))
    (hBL1 : 0 ≤ BL) (hBL2 : 16 ≤ t1 → BL = (bL : ℤ) + 1)
    (hIL1 : 0 ≤ IL) (hIL2 : 33 + bL ≤ t1 → IL = (iL : ℤ) + 1)
    (hCL1 : 0 ≤ CL) (hCL2 : 38 + bL + iL ≤ t1 → CL = (cL : ℤ) + 1)
    (he1 : e1 ≤ 1 ∧ 4 * e1 ≤ t1)
    (he2 : e2 ≤ 1 ∧ 4 * e2 ≤ t1 - 4)
    (he3 : e3 ≤ 1 ∧ 4 * e3 ≤ t1 - 4 - 4)
    (he4 : e4 ≤ 1 ∧ 4 * e4 ≤ t1 - 4 - 4 - 4)
    (he5 : e5 ≤ 1 ∧ 4 * e5 ≤ t1 - 4 - 4 - 4 - 4 - BL.toNat)
    (he6 : e6 ≤ 1 ∧ 4 * e6 ≤ t1 - 4 - 4 - 4 - 4 - BL.toNat - 4)
    (he7 : e7 ≤ 1 ∧ 4 * e7 ≤ t1 - 4 - 4 - 4 - 4 - BL.toNat - 4 - 4)
    (he8 : e8 ≤ 1 ∧ 4 * e8 ≤ t1 - 4 - 4 - 4 - 4 - BL.toNat - 4 - 4 - 4)
    (he9 : e9 ≤ 1 ∧ 4 * e9 ≤ t1 - 4 - 4 - 4 - 4 - BL.toNat - 4 - 4 - 4 - 4 - IL.toNat)
    (hm5 : m5 ≤ BL.toNat ∧ m5 ≤ t1 - 4 - 4 - 4 - 4)
    (hm10 : m10 ≤ IL.toNat ∧ m10 ≤ t1 - 4 - 4 - 4 - 4 - BL.toNat - 4 - 4 - 4 - 4)
    (hm12 : m12 ≤ CL.toNat ∧
      m12 ≤ t1 - 4 - 4 - 4 - 4 - BL.toNat - 4 - 4 - 4 - 4 - IL.toNat - 4) :
    (e1 : ℤ) + e2 + e3 + e4 + m5 + e5 + e6 + e7 + e8 + m10 + e9 + m12 <
      CL + IL + BL + 9 := by
  omega

set_option maxHeartbeats 4000000 in
theorem readSubTail_truncated (u0 u1 u2 : Int) (vb db : List Nat) (r : SubInput)
    (hbl : (r.binLength.length : Int) + 1 < 2147483648)
    (hil : (r.interval.length : Int) + 1 < 2147483648)
    (hcl : (r.consolidator.length : Int) + 1 < 2147483648)
    (t1 : Nat) (ht : t1 < (encSubTail r).length) :
    (readSubTail u0 u1 u2 vb db ((encSubTail r).take t1)).2.1 <
      (readSubTail u0 u1 u2 vb db ((encSubTail r).take t1)).2.2.1 := by
  simp only [readSubTail, rdInt, rdStr, List.drop_take, List.drop_drop,
    List.length_take, List.length_drop]
  set T := encSubTail r with hT0
  have hTlen : T.length = 36 + (r.binLength.length + 1) + (r.interval.length + 1) +
      (r.consolidator.length + 1) := by
    rw [hT0]
    exact encSubTail_length r
  set BL := toInt32 (leVal (List.take 4 (List.take (t1 - 4 - 4 - 4)
    (List.drop (4 + 4 + 4) T)))) with hBLdef
  set IL := toInt32 (leVal (List.take 4 (List.take
    (t1 - 4 - 4 - 4 - 4 - BL.toNat - 4 - 4 - 4)
    (List.drop (4 + 4 + 4 + 4 + BL.toNat + 4 + 4 + 4) T)))) with hILdef
  set CL := toInt32 (leVal (List.take 4 (List.take
    (t1 - 4 - 4 - 4 - 4 - BL.toNat - 4 - 4 - 4 - 4 - IL.toNat)
    (List.drop (4 + 4 + 4 + 4 + BL.toNat + 4 + 4 + 4 + 4 + IL.toNat) T)))) with hCLdef
  have hBLfact : 0 ≤ BL ∧ (16 ≤ t1 → BL = (r.binLength.length : Int) + 1) := by
    rw [hBLdef, hT0]
    have hsplit : encSubTail r =
        (i32 r.timestamp_0 ++ (i32 r.timestamp_1 ++ i32 r.minSamplesPerBin)) ++
          (i32 ((r.binLength.length : Int) + 1) ++
            ((r.binLength ++ [0]) ++ (i32 r.file_offset ++ (i32 r.n_samples ++
              (i32 r.unk_3 ++ (i32 ((r.interval.length : Int) + 1) ++
                ((r.interval ++ [0]) ++ (i32 ((r.consolidator.length : Int) + 1) ++
                  (r.consolidator ++ [0]))))))))) := by
      simp [encSubTail, strE, List.append_assoc]
    have hPlen : (i32 r.timestamp_0 ++ (i32 r.timestamp_1 ++
        i32 r.minSamplesPerBin)).length = 4 + 4 + 4 := by
      simp [i32_length]
    rw [hsplit, List.drop_left' hPlen]
    have hva := val_at ((r.binLength.length : Int) + 1)
      ((r.binLength ++ [0]) ++ (i32 r.file_offset ++ (i32 r.n_samples ++
        (i32 r.unk_3 ++ (i32 ((r.interval.length : Int) + 1) ++
          ((r.interval ++ [0]) ++ (i32 ((r.consolidator.length : Int) + 1) ++
            (r.consolidator ++ [0]))))))))
      (t1 - 4 - 4 - 4) (by omega) hbl
    exact ⟨hva.1, fun h16 => hva.2 (by omega)⟩
  have hILfact : 0 ≤ IL ∧ (33 + r.binLength.length ≤ t1 →
      IL = (r.interval.length : Int) + 1) := by
    by_cases h16 : 16 ≤ t1
    · have hBLn : BL.toNat = r.binLength.length + 1 := by
        rw [hBLfact.2 h16]
        omega
      rw [hILdef, hBLn, hT0]
      have hsplit : encSubTail r =
          (i32 r.timestamp_0 ++ (i32 r.timestamp_1 ++ (i32 r.minSamplesPerBin ++
            (i32 ((r.binLength.length : Int) + 1) ++ ((r.binLength ++ [0]) ++
              (i32 r.file_offset ++ (i32 r.n_samples ++ i32 r.unk_3))))))) ++
            (i32 ((r.interval.length : Int) + 1) ++
              ((r.interval ++ [0]) ++ (i32 ((r.consolidator.length : Int) + 1) ++
                (r.consolidator ++ [0])))) := by
        simp [encSubTail, strE, List.append_assoc]
      have hPlen : (i32 r.timestamp_0 ++ (i32 r.timestamp_1 ++ (i32 r.minSamplesPerBin ++
          (i32 ((r.binLength.length : Int) + 1) ++ ((r.binLength ++ [0]) ++
            (i32 r.file_offset ++ (i32 r.n_samples ++ i32 r.unk_3))))))).length =
          4 + 4 + 4 + 4 + (r.binLength.length + 1) + 4 + 4 + 4 := by
        simp [i32_length]
        omega
      rw [hsplit, List.drop_left' hPlen]
      have hva := val_at ((r.interval.length : Int) + 1)
        ((r.interval ++ [0]) ++ (i32 ((r.consolidator.length : Int) + 1) ++
          (r.consolidator ++ [0])))
        (t1 - 4 - 4 - 4 - 4 - (r.binLength.length + 1) - 4 - 4 - 4) (by omega) hil
      exact ⟨hva.1, fun h33 => hva.2 (by omega)⟩
    · have hBLnn : 0 ≤ BL := hBLfact.1
      have hz : t1 - 4 - 4 - 4 - 4 - BL.toNat - 4 - 4 - 4 = 0 := by omega
      rw [hILdef, hz]
      constructor
      · simp [leVal, toInt32]
      · intro h33
        omega
  have hCLfact : 0 ≤ CL ∧ (38 + r.binLength.length + r.interval.length ≤ t1 →
      CL = (r.consolidator.length : Int) + 1) := by
    by_cases h33 : 33 + r.binLength.length ≤ t1
    · have hBLn : BL.toNat = r.binLength.length + 1 := by
        rw [hBLfact.2 (by omega)]
        omega
      have hILn : IL.toNat = r.interval.length + 1 := by
        rw [hILfact.2 h33]
        omega
      rw [hCLdef, hBLn, hILn, hT0]
      have hsplit : encSubTail r =
          (i32 r.timestamp_0 ++ (i32 r.timestamp_1 ++ (i32 r.minSamplesPerBin ++
            (i32 ((r.binLength.length : Int) + 1) ++ ((r.binLength ++ [0]) ++
              (i32 r.file_offset ++ (i32 r.n_samples ++ (i32 r.unk_3 ++
                (i32 ((r.interval.length : Int) + 1) ++ (r.interval ++ [0])))))))))) ++
            (i32 ((r.consolidator.length : Int) + 1) ++ (r.consolidator ++ [0])) := by
        simp [encSubTail, strE, List.append_assoc]
      have hPlen : (i32 r.timestamp_0 ++ (i32 r.timestamp_1 ++ (i32 r.minSamplesPerBin ++
          (i32 ((r.binLength.length : Int) + 1) ++ ((r.binLength ++ [0]) ++
            (i32 r.file_offset ++ (i32 r.n_samples ++ (i32 r.unk_3 ++
              (i32 ((r.interval.length : Int) + 1) ++ (r.interval ++ [0])))))))))).length =
          4 + 4 + 4 + 4 + (r.binLength.length + 1) + 4 + 4 + 4 + 4 +
            (r.interval.length + 1) := by
        simp [i32_length]
        omega
      rw [hsplit, List.drop_left' hPlen]
      have hva := val_at ((r.consolidator.length : Int) + 1) (r.consolidator ++ [0])
        (t1 - 4 - 4 - 4 - 4 - (r.binLength.length + 1) - 4 - 4 - 4 - 4 -
          (r.interval.length + 1)) (by omega) hcl
      exact ⟨hva.1, fun h38 => hva.2 (by omega)⟩
    · have hBLnn : 0 ≤ BL := hBLfact.1
      have hILnn : 0 ≤ IL := hILfact.1
      have hz : t1 - 4 - 4 - 4 - 4 - BL.toNat - 4 - 4 - 4 - 4 - IL.toNat = 0 := by
        by_cases h16 : 16 ≤ t1
        · have hBLn : BL.toNat = r.binLength.length + 1 := by
            rw [hBLfact.2 h16]
            omega
          omega
        · omega
      rw [hCLdef, hz]
      constructor
      · simp [leVal, toInt32]
      · intro h38
        omega
  refine truncation_count_bound t1 T.length r.binLength.length r.interval.length
    r.consolidator.length BL IL CL _ _ _ _ _ _ _ _ _ _ _ _ ht hTlen hBLfact.1 hBLfact.2
    hILfact.1 hILfact.2 hCLfact.1 hCLfact.2 ?_ ?_ ?_ ?_ ?_ ?_ ?_ ?_ ?_ ?_ ?_ ?_
  all_goals first
    | (split <;> omega)
    | omega

theorem readSub_truncated (isInt : Bool) (r : SubInput) (hv : ValidSub isInt r)
    (t : Nat) (ht : t < (encSub isInt r).length) :
    (readSub isInt ((encSub isInt r).take t)).2.1 <
      (readSub isInt ((encSub isInt r).take t)).2.2.1 := by
  obtain ⟨h0, h1, h2, h3, h4, h5, h6, h7, h8, hdbl, hbl, hil, hcl⟩ := hv
  have htail := encSubTail_length r
  cases isInt with
  | true =>
      have hsplit : encSub true r =
          (i32 r.unk_0 ++ (i32 r.unk_1 ++ i32 r.unk_2)) ++ encSubTail r := by
        simp [encSub, List.append_assoc]
      have hPlen : (i32 r.unk_0 ++ (i32 r.unk_1 ++ i32 r.unk_2)).length = 4 + (4 + 4) := by
        simp [i32_length]
      have hlen : (encSub true r).length = 12 + (encSubTail r).length := by
        rw [hsplit]
        simp only [List.length_append, i32_length]
      simp only [readSub, rdInt]
      have hS3 : ((((encSub true r).take t).drop 4).drop 4).drop 4 =
          (encSubTail r).take (t - 12) := by
        rw [List.drop_drop, List.drop_drop, List.drop_take, hsplit, List.drop_left' hPlen]
      rw [hS3]
      exact readSubTail_truncated _ _ _ _ _ r hbl hil hcl (t - 12) (by omega)
  | false =>
      obtain ⟨hv8, hd8⟩ := hdbl rfl
      have hsplit : encSub false r =
          (r.valueBytes ++ r.dividerBytes) ++ encSubTail r := by
        simp [encSub, List.append_assoc]
      have hPlen : (r.valueBytes ++ r.dividerBytes).length = 8 + 8 := by
        simp [hv8, hd8]
      have hlen : (encSub false r).length = 16 + (encSubTail r).length := by
        rw [hsplit]
        simp only [List.length_append]
        omega
      simp only [readSub]
      have hS2 : (((encSub false r).take t).drop 8).drop 8 =
          (encSubTail r).take (t - 16) := by
        rw [List.drop_drop, List.drop_take, hsplit, List.drop_left' hPlen]
      rw [hS2]
      exact readSubTail_truncated _ _ _ _ _ r hbl hil hcl (t - 16) (by omega)

/-- `InRange32` is decidable, so witnesses can be checked by evaluation. -/
instance instDecidableInRange32 (v : Int) : Decidable (InRange32 v) := by
  unfold InRange32
  infer_instance

/-- `ValidSub` is decidable, so witnesses can be checked by evaluation. -/
instance instDecidableValidSub (isInt : Bool) (r : SubInput) :
    Decidable (ValidSub isInt r) := by
  unfold ValidSub
  infer_instance

/-- `ValidDat` is decidable, so witnesses can be checked by evaluation. -/
instance instDecidableValidDat (d : DatInput) : Decidable (ValidDat d) := by
  unfold ValidDat
  infer_instance

/-- **C7.** A metadata stream holding one complete Buffer record followed
by a second record truncated mid-way decodes to exactly the one valid
Buffer: the partial second record is dropped, the recorded buffer count
is 1, the recoverable-corruption diagnostic is reported (the `corrupt`
flag), and the decode as a whole does not fail — the header fields are
still returned and the magic check passes. -/
theorem C7_truncated_second_record (uuid dvar svc tag : List Nat) (r1 r2 : SubInput)
    (t : Nat)
    (hu : (uuid.length : Int) + 1 < 2147483648)
    (hv2 : (dvar.length : Int) + 1 < 2147483648)
    (hs : (svc.length : Int) + 1 < 2147483648)
    (htg : (tag.length : Int) + 1 < 2147483648)
    (hpl : cstr (uuid ++ [0]) ≠ placeholderBytes)
    (hr1 : ValidSub (isIntegerTag (tag ++ [0])) r1)
    (hr2 : ValidSub (isIntegerTag (tag ++ [0])) r2)
    (ht1 : 1 ≤ t) (ht2 : t < (encSub (isIntegerTag (tag ++ [0])) r2).length) :
    read_dat_file (encode_dat ⟨uuid, dvar, svc, tag, [r1]⟩ ++
        (encSub (isIntegerTag (tag ++ [0])) r2).take t) =
      ⟨MAGIC, (uuid.length : Int) + 1, uuid ++ [0],
       (dvar.length : Int) + 1, dvar ++ [0],
       (svc.length : Int) + 1, svc ++ [0],
       (tag.length : Int) + 1, tag ++ [0],
       1, [decSub (isIntegerTag (tag ++ [0])) r1], false, true⟩ := by
  set X := (encSub (isIntegerTag (tag ++ [0])) r2).take t with hX
  have hXne : X ≠ [] := by
    rw [hX]
    intro hc
    have hc2 := congrArg List.length hc
    simp only [List.length_take, List.length_nil] at hc2
    omega
  have hstream : encode_dat ⟨uuid, dvar, svc, tag, [r1]⟩ ++ X =
      MAGIC ++ (strE uuid ++ (strE dvar ++ (strE svc ++ (strE tag ++
        (encSub (isIntegerTag (tag ++ [0])) r1 ++ X))))) := by
    simp [encode_dat, List.append_assoc]
  rw [hstream, read_dat_file_enc uuid dvar svc tag _ hu hv2 hs htg hpl]
  have hrt := readSub_truncated (isIntegerTag (tag ++ [0])) r2 hr2 t ht2
  rw [← hX] at hrt
  have hloop : read_dat_loop (isIntegerTag (tag ++ [0]))
      ((encSub (isIntegerTag (tag ++ [0])) r1 ++ X).length + 1)
      (encSub (isIntegerTag (tag ++ [0])) r1 ++ X) = ([decSub (isIntegerTag (tag ++ [0])) r1], true) := by
    simp only [read_dat_loop, readSub_enc (isIntegerTag (tag ++ [0])) r1 X hr1]
    rw [if_neg (lt_irrefl (reqOf r1)), if_neg hXne]
    obtain ⟨f, hf⟩ : ∃ f, (encSub (isIntegerTag (tag ++ [0])) r1 ++ X).length = f + 1 := by
      have hpos := encSub_length_pos (isIntegerTag (tag ++ [0])) r1
      refine ⟨(encSub (isIntegerTag (tag ++ [0])) r1 ++ X).length - 1, ?_⟩
      simp only [List.length_append]
      omega
    rw [hf]
    rcases hEq : readSub (isIntegerTag (tag ++ [0])) X with ⟨sub, cnt, req, s2⟩
    have hlt : cnt < req := by
      rw [hEq] at hrt
      exact hrt
    simp only [read_dat_loop, hEq]
    rw [if_pos hlt]
  rw [hloop]
  simp

/-- **C7 (witness).** A concrete Integer-kind stream: one complete record
followed by the first byte of a second record. -/
theorem C7_truncated_second_record_witness :
    ((([117] : List Nat).length : Int) + 1 < 2147483648) ∧
    ((([118] : List Nat).length : Int) + 1 < 2147483648) ∧
    ((([119] : List Nat).length : Int) + 1 < 2147483648) ∧
    (((integerBytes : List Nat).length : Int) + 1 < 2147483648) ∧
    cstr ([117] ++ [0]) ≠ placeholderBytes ∧
    ValidSub (isIntegerTag (integerBytes ++ [0])) c4record ∧
    1 ≤ 1 ∧ 1 < (encSub (isIntegerTag (integerBytes ++ [0])) c4record).length ∧
    read_dat_file (encode_dat ⟨[117], [118], [119], integerBytes, [c4record]⟩ ++
        (encSub (isIntegerTag (integerBytes ++ [0])) c4record).take 1) =
      ⟨MAGIC, (([117] : List Nat).length : Int) + 1, [117] ++ [0],
       (([118] : List Nat).length : Int) + 1, [118] ++ [0],
       (([119] : List Nat).length : Int) + 1, [119] ++ [0],
       ((integerBytes : List Nat).length : Int) + 1, integerBytes ++ [0],
       1, [decSub (isIntegerTag (integerBytes ++ [0])) c4record], false, true⟩ :=
  ⟨by decide, by decide, by decide, by decide, by decide, by decide, by decide, by decide,
   C7_truncated_second_record [117] [118] [119] integerBytes c4record c4record 1
     (by decide) (by decide) (by decide) (by decide) (by decide) (by decide) (by decide)
     (by decide) (by decide)⟩

/-- A small complete Real-layout Buffer record: 8-byte value and divider
images, as the Real layout stores doubles. -/
def c6record : SubInput :=
  ⟨0, 0, 0, [1, 2, 3, 4, 5, 6, 7, 8], [9, 10, 11, 12, 13, 14, 15, 16],
   1, 2, 3, [97], 4, 5, 6, [98], [99]⟩

/-- A Real-kind metadata file with one Buffer record. -/
def c6dat : DatInput := ⟨[117], [118], [119], [114, 101, 97, 108], [c6record]⟩

/-- **C6 (witness).** The round-trip theorem applied to a concrete
Real-kind metadata file. -/
theorem C6_roundtrip_witness :
    ValidDat c6dat ∧
    read_dat_file (encode_dat c6dat) =
      ⟨MAGIC, ((c6dat.uuid.length : Int)) + 1, c6dat.uuid ++ [0],
       ((c6dat.deviceVar.length : Int)) + 1, c6dat.deviceVar ++ [0],
       ((c6dat.deviceSvc.length : Int)) + 1, c6dat.deviceSvc ++ [0],
       ((c6dat.sampleType.length : Int)) + 1, c6dat.sampleType ++ [0],
       (c6dat.subs.length : Int),
       c6dat.subs.map (decSub (isIntegerTag (c6dat.sampleType ++ [0]))), false, false⟩ :=
  ⟨by decide, C6_roundtrip c6dat (by decide)⟩

end TransferLogs
